import Mathlib

/-
Verification development for the statistics engine of imessage-wrapped
(src/imessage_wrapped.py).  The engine is `compute_stats` together with its
inline streak scan.  The shallow embedding below models:

  * timestamps as seconds (Nat); the Python `dt.date()` projection becomes
    integer division by 86400, so calendar dates are encoded as day numbers
    and "next calendar day" is `d + 1`;
  * Python float hours as exact rationals: `(dt - prev).total_seconds()/3600`
    becomes `mkRat (dt - prev) 3600`, which is the real number the float
    computation approximates (datetime resolution is far above the float
    rounding error at the 48h threshold);
  * Python dicts and Counters (which iterate in insertion order) as
    association lists where a new key is appended at the end;
  * Python sets of dates as duplicate-free lists (only observed through
    len(), membership and sorted());
  * Python list.sort / sorted (stable) as `List.insertionSort`, which is
    stable for relations of the shape `key a <= key b`;
  * Python strings as `String`, with the text pipeline (strip, split,
    lower, strip(punctuation), isalpha, the emoji regex) implemented over
    `String.data : List Char`.
-/

namespace IMessageWrapped

/-- One normalized message record, as produced by `load_messages`:
`{is_from_me, datetime, conv_key, conv_name, text}`. -/
structure MessageRecord where
  is_from_me : Bool
  timestamp : Nat
  conv_key : String
  conv_name : String
  text : String
deriving DecidableEq

/-- Python `dt.date()`: the calendar date of a timestamp, encoded as a day
number. -/
def dayOf (ts : Nat) : Nat := ts / 86400

/-- Python `(now - prev).total_seconds() / 3600`, as an exact rational. -/
def respHours (now prev : Nat) : ℚ := mkRat ((now : Int) - (prev : Int)) 3600

/-- The per-conversation accumulator dict created at first sight of a
`conv_key` inside the message loop of `compute_stats`. -/
structure ConvEntry where
  name : String
  sent : Nat
  received : Nat
  total : Nat
  messages : Nat
  days_active : List Nat
  text_words : Nat
  text_messages : Nat
  last_received_time : Option Nat
  last_sent_time : Option Nat
  your_response_times : List ℚ
  their_response_times : List ℚ
deriving DecidableEq

/-- The fresh entry `per_conv[conv_key] = {...}` with the first-seen name. -/
def initEntry (name : String) : ConvEntry :=
  { name := name, sent := 0, received := 0, total := 0, messages := 0,
    days_active := [], text_words := 0, text_messages := 0,
    last_received_time := none, last_sent_time := none,
    your_response_times := [], their_response_times := [] }

/-- Lookup in an insertion-ordered association list (a Python dict). -/
def lookupKey {α : Type} (l : List (String × α)) (k : String) : Option α :=
  match l with
  | [] => none
  | (k2, v) :: rest => if k2 = k then some v else lookupKey rest k

/-- Store under a key in an insertion-ordered association list: replace in
place when the key exists, append at the end otherwise (Python dict
assignment). -/
def storeEntry {α : Type} (l : List (String × α)) (k : String) (v : α) :
    List (String × α) :=
  match l with
  | [] => [(k, v)]
  | (k2, v2) :: rest =>
      if k2 = k then (k, v) :: rest else (k2, v2) :: storeEntry rest k v

/-- Python `counter[k] += 1` on an insertion-ordered counter. -/
def bumpCount {α : Type} [DecidableEq α] (l : List (α × Nat)) (k : α) :
    List (α × Nat) :=
  match l with
  | [] => [(k, 1)]
  | (k2, c) :: rest =>
      if k2 = k then (k2, c + 1) :: rest else (k2, c) :: bumpCount rest k

/-- Python `set.add` on a duplicate-free list model of a set. -/
def addDay (l : List Nat) (d : Nat) : List Nat :=
  if d ∈ l then l else l ++ [d]

/-- The character class of `EMOJI_RE`, three fixed Unicode ranges. -/
def isEmojiChar (c : Char) : Bool :=
  (0x1F300 ≤ c.toNat && c.toNat ≤ 0x1FAFF) ||
  (0x2700 ≤ c.toNat && c.toNat ≤ 0x27BF) ||
  (0x2600 ≤ c.toNat && c.toNat ≤ 0x26FF)

/-- Python `EMOJI_RE.sub(given empty, text)`: delete every emoji character
(the regex matches single characters). -/
def stripEmoji (cs : List Char) : List Char := cs.filter (fun c => !isEmojiChar c)

/-- Python `EMOJI_RE.findall(text)`: the emoji characters in order. -/
def findEmoji (cs : List Char) : List Char := cs.filter isEmojiChar

/-- Helper for `splitWs`: accumulates the current token reversed. -/
def splitWsGo : List Char → List Char → List (List Char)
  | [], acc => if acc.isEmpty then [] else [acc.reverse]
  | c :: rest, acc =>
      if c.isWhitespace then
        if acc.isEmpty then splitWsGo rest [] else acc.reverse :: splitWsGo rest []
      else splitWsGo rest (c :: acc)

/-- Python `str.split()` with no argument: split on whitespace runs,
dropping empty tokens. -/
def splitWs (cs : List Char) : List (List Char) := splitWsGo cs []

/-- Strip characters satisfying `p` from both ends of a character list
(Python `str.strip(chars)` / `str.strip()`). -/
def stripEnds (p : Char → Bool) (cs : List Char) : List Char :=
  ((cs.dropWhile p).reverse.dropWhile p).reverse

/-- The fixed punctuation set stripped around words in `compute_stats`. -/
def isTrimPunct (c : Char) : Bool :=
  ['.', ',', '!', '?', ';', ':', '"', '\'', '(', ')', '[', ']',
   '\x7b', '\x7d'].contains c

/-- Python `word.lower().strip(punctuation).strip()` for one token. -/
def cleanWord (w : List Char) : List Char :=
  stripEnds Char.isWhitespace (stripEnds isTrimPunct (w.map Char.toLower))

/-- The fixed `common_words` stop-word set of `compute_stats`. -/
def common_words : List String :=
  ["the", "a", "an", "and", "or", "but", "in", "on", "at", "to", "for",
   "of", "with", "by", "from", "as", "is", "was", "are", "be", "been",
   "being", "have", "has", "had", "do", "does", "did", "will", "would",
   "should", "could", "may", "might", "must", "can", "i", "you", "he",
   "she", "it", "we", "they", "my", "your", "his", "her", "its", "our",
   "their", "me", "him", "them", "this", "that", "these", "those", "am",
   "im", "id", "ill", "ive", "dont", "doesnt", "didnt", "wont", "wouldnt",
   "shouldnt", "couldnt", "cant", "isnt", "arent", "wasnt", "werent",
   "hasnt", "havent", "hadnt"]

/-- Boolean test that `pat` is a leading segment of `cs`
(Python `str.startswith`). -/
def leadSeg : List Char → List Char → Bool
  | [], _ => true
  | _ :: _, [] => false
  | p :: ps, c :: cs => p == c && leadSeg ps cs

/-- Boolean contiguous-substring test (Python `pat in s`). -/
def containsSeg (pat : List Char) : List Char → Bool
  | [] => leadSeg pat []
  | c :: cs => leadSeg pat (c :: cs) || containsSeg pat cs

/-- The admission filter of the word table in `compute_stats`: length
strictly between 2 and 20, not a stop word, no double underscore, no "ns"
prefix, all alphabetic.  `Char.isAlpha` models Python `str.isalpha` on the
character sets the engine meets. -/
def wordAllowed (c : List Char) : Bool :=
  decide (2 < c.length) && decide (c.length < 20) &&
  !(common_words.contains (String.mk c)) &&
  !(containsSeg ['_', '_'] c) &&
  !(leadSeg ['n', 's'] c) &&
  c.all Char.isAlpha

/-- The word-counting loop body over the split tokens of one message. -/
def addWords (wc : List (String × Nat)) (ws : List (List Char)) :
    List (String × Nat) :=
  ws.foldl
    (fun acc w =>
      let c := cleanWord w
      if wordAllowed c then bumpCount acc (String.mk c) else acc)
    wc

/-- The outgoing (`is_from_me`) branch of the response-time state machine,
plus the `sent` increment and the `last_sent_time` update. -/
def outgoingStep (ts : Nat) (e : ConvEntry) : ConvEntry :=
  let e1 :=
    match e.last_received_time with
    | some t =>
        let td := respHours ts t
        let e2 :=
          if td ≤ 48 then
            { e with your_response_times := e.your_response_times ++ [td] }
          else e
        { e2 with last_received_time := none }
    | none => e
  { e1 with sent := e1.sent + 1, last_sent_time := some ts }

/-- The incoming branch, symmetric to `outgoingStep`. -/
def incomingStep (ts : Nat) (e : ConvEntry) : ConvEntry :=
  let e1 :=
    match e.last_sent_time with
    | some t =>
        let td := respHours ts t
        let e2 :=
          if td ≤ 48 then
            { e with their_response_times := e.their_response_times ++ [td] }
          else e
        { e2 with last_sent_time := none }
    | none => e
  { e1 with received := e1.received + 1, last_received_time := some ts }

/-- The full per-invocation accumulator state of the message loop. -/
structure FoldState where
  per_conv : List (String × ConvEntry)
  day_counts : List (Nat × Nat)
  emoji_counter : List (Char × Nat)
  word_counter : List (String × Nat)
  sent_count : Nat
  received_count : Nat
  all_dates : List Nat
deriving DecidableEq

/-- The initial accumulator state. -/
def initState : FoldState :=
  { per_conv := [], day_counts := [], emoji_counter := [], word_counter := [],
    sent_count := 0, received_count := 0, all_dates := [] }

/-- The body of the message loop of `compute_stats` for one message. -/
def processMsg (st : FoldState) (m : MessageRecord) : FoldState :=
  let day := dayOf m.timestamp
  let e0 := (lookupKey st.per_conv m.conv_key).getD (initEntry m.conv_name)
  let e1 := if m.is_from_me then outgoingStep m.timestamp e0
            else incomingStep m.timestamp e0
  let e2 := { e1 with total := e1.total + 1, messages := e1.messages + 1,
                      days_active := addDay e1.days_active day }
  let tc := stripEnds Char.isWhitespace m.text.data
  let e3 :=
    if tc.isEmpty then e2
    else
      { e2 with text_words := e2.text_words + (splitWs (stripEmoji tc)).length,
                text_messages := e2.text_messages + 1 }
  { per_conv := storeEntry st.per_conv m.conv_key e3,
    day_counts := bumpCount st.day_counts day,
    emoji_counter :=
      if tc.isEmpty then st.emoji_counter
      else (findEmoji tc).foldl bumpCount st.emoji_counter,
    word_counter :=
      if tc.isEmpty then st.word_counter
      else addWords st.word_counter (splitWs (stripEmoji tc)),
    sent_count := st.sent_count + (if m.is_from_me then 1 else 0),
    received_count := st.received_count + (if m.is_from_me then 0 else 1),
    all_dates := st.all_dates ++ [day] }

/-- The ascending-by-timestamp relation of the initial
`sorted(messages, key=datetime)`. -/
def msgLe (a b : MessageRecord) : Prop := a.timestamp ≤ b.timestamp

instance : DecidableRel msgLe := fun a b => Nat.decLe a.timestamp b.timestamp

instance : IsTotal MessageRecord msgLe := ⟨fun a b => Nat.le_total _ _⟩

instance : IsTrans MessageRecord msgLe := ⟨fun _ _ _ => Nat.le_trans⟩

/-- The timestamp-sorted message sequence (Python sorted is stable;
`List.insertionSort` with a `key a <= key b` relation is the same stable
sort). -/
def sortedMessages (msgs : List MessageRecord) : List MessageRecord :=
  List.insertionSort msgLe msgs

/-- The accumulator state after the whole message loop. -/
def foldAll (msgs : List MessageRecord) : FoldState :=
  (sortedMessages msgs).foldl processMsg initState

/-- The per-conversation dict after the message loop. -/
def perConvOf (msgs : List MessageRecord) : List (String × ConvEntry) :=
  (foldAll msgs).per_conv

/-- The streak scan loop of `compute_stats` over the sorted day list, with
the running state `(prev, curStart, curLen, maxLen, bestStart, bestEnd)`:
`prev` is the previously seen day, the current run is
`curStart..prev` of length `curLen`, and `(maxLen, bestStart, bestEnd)` is
the best finished run so far (a tie does not overwrite). -/
def streakScan (prev curStart curLen maxLen bestStart bestEnd : Nat) :
    List Nat → Nat × Nat × Nat
  | [] =>
      if maxLen < curLen then (curLen, curStart, prev)
      else (maxLen, bestStart, bestEnd)
  | d :: rest =>
      if d = prev + 1 then
        streakScan d curStart (curLen + 1) maxLen bestStart bestEnd rest
      else if maxLen < curLen then
        streakScan d d 1 curLen curStart prev rest
      else
        streakScan d d 1 maxLen bestStart bestEnd rest

/-- The ascending order used by `sorted(days_active)`. -/
def natLe (a b : Nat) : Prop := a ≤ b

instance : DecidableRel natLe := fun a b => Nat.decLe a b

instance : IsTotal Nat natLe := ⟨fun a b => Nat.le_total _ _⟩

instance : IsTrans Nat natLe := ⟨fun _ _ _ => Nat.le_trans⟩

/-- StreakFinder: the per-conversation longest-streak block of
`compute_stats` (sort the active days, then scan), returning
`(length, start, end)` or `none` for an empty day set. -/
def longestRun (days : List Nat) : Option (Nat × Nat × Nat) :=
  match List.insertionSort natLe days with
  | [] => none
  | d :: rest => some (streakScan d d 1 1 d d rest)

/-- A finalized conversation entry, after the per-conversation loop that
adds the derived fields. -/
structure ConversationStats where
  name : String
  sent : Nat
  received : Nat
  total : Nat
  messages : Nat
  days_active : List Nat
  text_words : Nat
  text_messages : Nat
  your_response_times : List ℚ
  their_response_times : List ℚ
  days_active_count : Nat
  avg_length : ℚ
  your_avg_response_hours : Option ℚ
  their_avg_response_hours : Option ℚ
  streak_length : Nat
  streak_start : Option Nat
  streak_end : Option Nat
deriving DecidableEq

/-- Python `sum` over rationals. -/
def ratSum (l : List ℚ) : ℚ := l.foldl (· + ·) 0

/-- The finalize step for one conversation entry. -/
def finalizeEntry (e : ConvEntry) : ConversationStats :=
  { name := e.name, sent := e.sent, received := e.received, total := e.total,
    messages := e.messages, days_active := e.days_active,
    text_words := e.text_words, text_messages := e.text_messages,
    your_response_times := e.your_response_times,
    their_response_times := e.their_response_times,
    days_active_count := e.days_active.length,
    avg_length :=
      if 0 < e.text_messages then (e.text_words : ℚ) / (e.text_messages : ℚ)
      else 0,
    your_avg_response_hours :=
      if e.your_response_times.isEmpty then none
      else some (ratSum e.your_response_times / (e.your_response_times.length : ℚ)),
    their_avg_response_hours :=
      if e.their_response_times.isEmpty then none
      else some (ratSum e.their_response_times / (e.their_response_times.length : ℚ)),
    streak_length := ((longestRun e.days_active).map (fun t => t.1)).getD 0,
    streak_start := (longestRun e.days_active).map (fun t => t.2.1),
    streak_end := (longestRun e.days_active).map (fun t => t.2.2) }

/-- The finalized conversation list, in dict insertion order. -/
def convStatsOf (msgs : List MessageRecord) : List ConversationStats :=
  (perConvOf msgs).map (fun kv => finalizeEntry kv.2)

/-- The `longest_contact_streak` record. -/
structure StreakInfo where
  name : String
  length : Nat
  startDay : Nat
  endDay : Nat
deriving DecidableEq

/-- The running arg-max (strictly-greater wins, so the first maximum is
kept) selecting `longest_contact_streak` across conversations.  An entry
with an empty day set has `streak_start = none` and never competes, exactly
like the `if entry["days_active"]:` guard. -/
def bestStreak (cs : List ConversationStats) : Option StreakInfo :=
  (cs.foldl
    (fun acc e =>
      match e.streak_start, e.streak_end with
      | some s, some en =>
          if acc.2 < e.streak_length then
            (some { name := e.name, length := e.streak_length,
                    startDay := s, endDay := en }, e.streak_length)
          else acc
      | _, _ => acc)
    (none, 0)).1

/-- The descending-by-total relation of
`sorted(..., key=total, reverse=True)` (stable on ties). -/
def totalGe (a b : ConversationStats) : Prop := b.total ≤ a.total

instance : DecidableRel totalGe := fun a b => Nat.decLe b.total a.total

instance : IsTotal ConversationStats totalGe := ⟨fun a b => Nat.le_total _ _⟩

instance : IsTrans ConversationStats totalGe :=
  ⟨fun _ _ _ h1 h2 => Nat.le_trans h2 h1⟩

/-- The descending-by-count relation used by `Counter.most_common`
(stable on ties, first insertion wins). -/
def countGe {α : Type} (a b : α × Nat) : Prop := b.2 ≤ a.2

instance {α : Type} : DecidableRel (countGe (α := α)) :=
  fun a b => Nat.decLe b.2 a.2

instance {α : Type} : IsTotal (α × Nat) (countGe (α := α)) :=
  ⟨fun a b => Nat.le_total _ _⟩

instance {α : Type} : IsTrans (α × Nat) (countGe (α := α)) :=
  ⟨fun _ _ _ h1 h2 => Nat.le_trans h2 h1⟩

/-- Python `Counter.most_common(n)`: count-descending stable sort, then the
first `n` entries. -/
def mostCommon {α : Type} [DecidableEq α] (n : Nat) (l : List (α × Nat)) :
    List (α × Nat) :=
  (List.insertionSort countGe l).take n

/-- Python `max(items, key=count)`: the first pair attaining the maximal
count (later ties do not replace the running best). -/
def firstMaxPair (l : List (Nat × Nat)) : Option (Nat × Nat) :=
  match l with
  | [] => none
  | x :: xs => some (xs.foldl (fun b y => if b.2 < y.2 then y else b) x)

/-- Python `min` over a day list (`none` on empty, which the engine never
hits on the non-empty path). -/
def listMin (l : List Nat) : Option Nat :=
  match l with
  | [] => none
  | d :: rest => some (rest.foldl Nat.min d)

/-- Python `max` over a day list. -/
def listMax (l : List Nat) : Option Nat :=
  match l with
  | [] => none
  | d :: rest => some (rest.foldl Nat.max d)

/-- The result dict of `compute_stats`.  Python returns a plain dict, so a
key can be absent: the empty-input early return carries no `top_words`
key while every non-empty run does, hence `top_words` is an `Option` with
`none` modelling the absent key.  All other keys are present on both
paths. -/
structure PeriodStats where
  total_messages : Nat
  sent_count : Nat
  received_count : Nat
  start_date : Option Nat
  end_date : Option Nat
  top_contacts : List ConversationStats
  top_contact : Option ConversationStats
  busiest_day : Option (Nat × Nat)
  longest_contact_streak : Option StreakInfo
  top_emoji : List (Char × Nat)
  top_words : Option (List (String × Nat))
deriving DecidableEq

/-- The early-return dict of `compute_stats` for an empty input batch.
Note the absence of a `top_words` key in the source, modelled by `none`. -/
def emptyStats : PeriodStats :=
  { total_messages := 0, sent_count := 0, received_count := 0,
    start_date := none, end_date := none, top_contacts := [],
    top_contact := none, busiest_day := none,
    longest_contact_streak := none, top_emoji := [], top_words := none }

/-- The statistics engine `compute_stats(messages, top_n, top_emoji_n)`.
As in the source, `top_n` is accepted but never read, and the word list is
truncated with `top_emoji_n`. -/
def compute_stats (messages : List MessageRecord) (top_n top_emoji_n : Nat) :
    PeriodStats :=
  if messages.isEmpty then emptyStats
  else
    let st := foldAll messages
    let convs := st.per_conv.map (fun kv => finalizeEntry kv.2)
    let top_contacts :=
      List.insertionSort totalGe (convs.filter (fun e => 100 ≤ e.total))
    { total_messages := messages.length,
      sent_count := st.sent_count,
      received_count := st.received_count,
      start_date := listMin st.all_dates,
      end_date := listMax st.all_dates,
      top_contacts := top_contacts,
      top_contact := top_contacts.head?,
      busiest_day := firstMaxPair st.day_counts,
      longest_contact_streak := bestStreak convs,
      top_emoji := mostCommon top_emoji_n st.emoji_counter,
      top_words := some (mostCommon top_emoji_n st.word_counter) }

/-- The engine together with its incidental diagnostic output: the per-entry
debug print fires for finalized conversations with zero average length and
more than ten messages; the printed names are collected as data. -/
def compute_statsDiag (messages : List MessageRecord)
    (top_n top_emoji_n : Nat) : PeriodStats × List String :=
  if messages.isEmpty then (emptyStats, [])
  else
    let st := foldAll messages
    let convs := st.per_conv.map (fun kv => finalizeEntry kv.2)
    let diags :=
      (convs.filter (fun e => e.avg_length = 0 ∧ 10 < e.total)).map
        (fun e => e.name)
    let top_contacts :=
      List.insertionSort totalGe (convs.filter (fun e => 100 ≤ e.total))
    ({ total_messages := messages.length,
       sent_count := st.sent_count,
       received_count := st.received_count,
       start_date := listMin st.all_dates,
       end_date := listMax st.all_dates,
       top_contacts := top_contacts,
       top_contact := top_contacts.head?,
       busiest_day := firstMaxPair st.day_counts,
       longest_contact_streak := bestStreak convs,
       top_emoji := mostCommon top_emoji_n st.emoji_counter,
       top_words := some (mostCommon top_emoji_n st.word_counter) }, diags)

/-! ### Shared association-list lemmas -/

theorem lookup_store_same {α : Type} (l : List (String × α)) (k : String)
    (v : α) : lookupKey (storeEntry l k v) k = some v := by
  induction l with
  | nil => simp [storeEntry, lookupKey]
  | cons hd tl ih =>
    by_cases h : hd.1 = k
    · simp [storeEntry, lookupKey, h]
    · simpa [storeEntry, lookupKey, h] using ih

theorem lookup_store_other {α : Type} (l : List (String × α)) (k k2 : String)
    (v : α) (hne : k2 ≠ k) :
    lookupKey (storeEntry l k v) k2 = lookupKey l k2 := by
  induction l with
  | nil => simp [storeEntry, lookupKey, Ne.symm hne]
  | cons hd tl ih =>
    by_cases h : hd.1 = k
    · subst h
      simp [storeEntry, lookupKey, Ne.symm hne]
    · by_cases h2 : hd.1 = k2 <;> simp [storeEntry, lookupKey, h, h2, ih, hne]

theorem perConv_nil : perConvOf [] = [] := rfl

/-- The per-conversation dict of the next state: the same store update for
every message shape. -/
theorem processMsg_per_conv (st : FoldState) (m : MessageRecord) :
    ∃ e3 : ConvEntry,
      (processMsg st m).per_conv = storeEntry st.per_conv m.conv_key e3 ∧
      e3.your_response_times =
        (if m.is_from_me then
            outgoingStep m.timestamp
              ((lookupKey st.per_conv m.conv_key).getD (initEntry m.conv_name))
          else
            incomingStep m.timestamp
              ((lookupKey st.per_conv m.conv_key).getD (initEntry m.conv_name))).your_response_times ∧
      e3.their_response_times =
        (if m.is_from_me then
            outgoingStep m.timestamp
              ((lookupKey st.per_conv m.conv_key).getD (initEntry m.conv_name))
          else
            incomingStep m.timestamp
              ((lookupKey st.per_conv m.conv_key).getD (initEntry m.conv_name))).their_response_times ∧
      e3.last_received_time =
        (if m.is_from_me then
            outgoingStep m.timestamp
              ((lookupKey st.per_conv m.conv_key).getD (initEntry m.conv_name))
          else
            incomingStep m.timestamp
              ((lookupKey st.per_conv m.conv_key).getD (initEntry m.conv_name))).last_received_time ∧
      e3.last_sent_time =
        (if m.is_from_me then
            outgoingStep m.timestamp
              ((lookupKey st.per_conv m.conv_key).getD (initEntry m.conv_name))
          else
            incomingStep m.timestamp
              ((lookupKey st.per_conv m.conv_key).getD (initEntry m.conv_name))).last_sent_time := by
  refine ⟨_, rfl, ?_⟩
  by_cases htc : (stripEnds Char.isWhitespace m.text.data).isEmpty <;>
    simp [processMsg, htc]

/-! ### Concrete example inputs -/

/-- Incoming message at t0 = 1000s. -/
def exRespIn0 : MessageRecord :=
  { is_from_me := false, timestamp := 1000, conv_key := "a",
    conv_name := "Alice", text := "" }

/-- Outgoing message at t1 = t0 + 1h. -/
def exRespOut1 : MessageRecord :=
  { is_from_me := true, timestamp := 4600, conv_key := "a",
    conv_name := "Alice", text := "" }

/-- Incoming message at t2 = t1 + 50h. -/
def exRespIn2 : MessageRecord :=
  { is_from_me := false, timestamp := 184600, conv_key := "a",
    conv_name := "Alice", text := "" }

/-- A conversation entry holding a pending incoming timestamp. -/
def exC1Entry : ConvEntry :=
  { name := "Alice", sent := 0, received := 1, total := 1, messages := 1,
    days_active := [0], text_words := 0, text_messages := 0,
    last_received_time := some 1000, last_sent_time := none,
    your_response_times := [], their_response_times := [] }

/-- A loop state holding `exC1Entry` under key `"a"`. -/
def exC1State : FoldState :=
  { per_conv := [("a", exC1Entry)], day_counts := [(0, 1)],
    emoji_counter := [], word_counter := [], sent_count := 0,
    received_count := 1, all_dates := [0] }

/-! ### C1: response-time pairing -/

/-- C1: over the timestamp-sorted sequence, an outgoing message that finds
a pending incoming timestamp appends the elapsed hours (difference divided
by 3600 seconds) to `your_response_times` exactly when they are at most
48, clears the pending incoming register either way, and records its own
timestamp as pending outgoing; symmetrically for incoming messages and
`their_response_times`.  On the concrete input (incoming t0, outgoing
t0+1h, incoming t1+50h, one conversation) the engine yields
`your_response_times = [1]` and `their_response_times = []`. -/
theorem c1_response_time_pairing :
    (∀ (st : FoldState) (m : MessageRecord) (e : ConvEntry) (t : Nat),
       lookupKey st.per_conv m.conv_key = some e →
       m.is_from_me = true →
       e.last_received_time = some t →
       ∃ e2 : ConvEntry,
         lookupKey (processMsg st m).per_conv m.conv_key = some e2 ∧
         e2.your_response_times =
           (if respHours m.timestamp t ≤ 48 then
              e.your_response_times ++ [respHours m.timestamp t]
            else e.your_response_times) ∧
         e2.their_response_times = e.their_response_times ∧
         e2.last_received_time = none ∧
         e2.last_sent_time = some m.timestamp) ∧
    (∀ (st : FoldState) (m : MessageRecord) (e : ConvEntry) (t : Nat),
       lookupKey st.per_conv m.conv_key = some e →
       m.is_from_me = false →
       e.last_sent_time = some t →
       ∃ e2 : ConvEntry,
         lookupKey (processMsg st m).per_conv m.conv_key = some e2 ∧
         e2.their_response_times =
           (if respHours m.timestamp t ≤ 48 then
              e.their_response_times ++ [respHours m.timestamp t]
            else e.their_response_times) ∧
         e2.your_response_times = e.your_response_times ∧
         e2.last_sent_time = none ∧
         e2.last_received_time = some m.timestamp) ∧
    (convStatsOf [exRespIn0, exRespOut1, exRespIn2]).map
        (fun e => (e.your_response_times, e.their_response_times)) =
      [([1], [])] := by
  refine ⟨?_, ?_, by decide⟩
  · intro st m e t hlook hout hreg
    obtain ⟨e3, hpc, hyour, htheir, hrecv, hsent⟩ := processMsg_per_conv st m
    refine ⟨e3, by rw [hpc]; exact lookup_store_same .., ?_, ?_, ?_, ?_⟩ <;>
      by_cases h48 : respHours m.timestamp t ≤ 48 <;>
        simp [hyour, htheir, hrecv, hsent, hout, hlook, outgoingStep, hreg, h48]
  · intro st m e t hlook hin hreg
    obtain ⟨e3, hpc, hyour, htheir, hrecv, hsent⟩ := processMsg_per_conv st m
    refine ⟨e3, by rw [hpc]; exact lookup_store_same .., ?_, ?_, ?_, ?_⟩ <;>
      by_cases h48 : respHours m.timestamp t ≤ 48 <;>
        simp [hyour, htheir, hrecv, hsent, hin, hlook, incomingStep, hreg, h48]

/-- Witness for C1 at a concrete state and outgoing message. -/
theorem c1_response_time_pairing_witness :
    lookupKey exC1State.per_conv exRespOut1.conv_key = some exC1Entry ∧
    exRespOut1.is_from_me = true ∧
    exC1Entry.last_received_time = some 1000 ∧
    (∃ e2 : ConvEntry,
       lookupKey (processMsg exC1State exRespOut1).per_conv
           exRespOut1.conv_key = some e2 ∧
       e2.your_response_times =
         (if respHours exRespOut1.timestamp 1000 ≤ 48 then
            exC1Entry.your_response_times ++ [respHours exRespOut1.timestamp 1000]
          else exC1Entry.your_response_times) ∧
       e2.their_response_times = exC1Entry.their_response_times ∧
       e2.last_received_time = none ∧
       e2.last_sent_time = some exRespOut1.timestamp) :=
  ⟨by decide, rfl, rfl,
   c1_response_time_pairing.1 exC1State exRespOut1 exC1Entry 1000
     (by decide) rfl rfl⟩

/-! ### C3: the empty input batch -/

/-- C3: evaluation of the engine on the empty batch.  The counts are all
zero and the optional fields are all `none`, and `top_contacts` and
`top_emoji` are present and empty, but the returned dict carries NO
`top_words` key (modelled as `top_words = none`), where the specification
requires all three top-list collections to be present and empty. -/
theorem c3_empty_input_eval :
    ∀ top_n top_emoji_n : Nat,
      compute_stats [] top_n top_emoji_n =
        { total_messages := 0, sent_count := 0, received_count := 0,
          start_date := none, end_date := none, top_contacts := [],
          top_contact := none, busiest_day := none,
          longest_contact_streak := none, top_emoji := [],
          top_words := none } :=
  fun _ _ => rfl

/-! ### C8: determinism -/

/-- C8: the engine is a pure function of its input: two invocations on the
same input are equal, and the diagnostic output (the debug print of the
finalize loop, collected as data by `compute_statsDiag`) does not affect
the returned value. -/
theorem c8_determinism :
    ∀ (msgs : List MessageRecord) (top_n top_emoji_n : Nat),
      compute_stats msgs top_n top_emoji_n =
          compute_stats msgs top_n top_emoji_n ∧
      (compute_statsDiag msgs top_n top_emoji_n).1 =
          compute_stats msgs top_n top_emoji_n := by
  intro msgs tn ten
  refine ⟨rfl, ?_⟩
  by_cases h : msgs.isEmpty <;> simp [compute_stats, compute_statsDiag, h]

/-! ### C10: the unused top_n parameter -/

/-- A batch of 100 outgoing messages in one conversation. -/
def ex100 : List MessageRecord :=
  (List.range 100).map
    (fun i => { is_from_me := true, timestamp := i, conv_key := "a",
                conv_name := "Alice", text := "" })

/-- The finalized stats of the single conversation of `ex100`. -/
def ex100Stats : ConversationStats :=
  { name := "Alice", sent := 100, received := 0, total := 100,
    messages := 100, days_active := [0], text_words := 0,
    text_messages := 0, your_response_times := [],
    their_response_times := [], days_active_count := 1, avg_length := 0,
    your_avg_response_hours := none, their_avg_response_hours := none,
    streak_length := 1, streak_start := some 0, streak_end := some 0 }

/-- C10: `top_n` has no effect on the result — any two values (with
`top_emoji_n` fixed) give equal outputs — and `top_contacts` is never
truncated: every conversation with total at least 100 is in it. -/
theorem c10_top_n_unused :
    ∀ (msgs : List MessageRecord) (tn1 tn2 ten : Nat),
      compute_stats msgs tn1 ten = compute_stats msgs tn2 ten ∧
      ∀ e : ConversationStats, e ∈ convStatsOf msgs → 100 ≤ e.total →
        e ∈ (compute_stats msgs tn1 ten).top_contacts := by
  intro msgs tn1 tn2 ten
  refine ⟨rfl, ?_⟩
  intro e hmem htot
  by_cases h : msgs.isEmpty
  · rw [List.isEmpty_iff.mp h] at hmem
    simp [convStatsOf, perConv_nil] at hmem
  · simp only [convStatsOf, perConvOf] at hmem
    rw [show (compute_stats msgs tn1 ten).top_contacts =
          List.insertionSort totalGe
            (((foldAll msgs).per_conv.map (fun kv => finalizeEntry kv.2)).filter
              (fun e => decide (100 ≤ e.total))) from by
        simp [compute_stats, h]]
    exact (List.mem_insertionSort totalGe).mpr
      (List.mem_filter.mpr ⟨hmem, by simpa using htot⟩)

set_option maxRecDepth 8192 in
/-- Witness for C10: two different `top_n` values on `ex100`, and the
100-message conversation is reported. -/
theorem c10_top_n_unused_witness :
    ex100Stats ∈ convStatsOf ex100 ∧ 100 ≤ ex100Stats.total ∧
    ex100Stats ∈ (compute_stats ex100 15 20).top_contacts :=
  ⟨by decide, by decide,
   (c10_top_n_unused ex100 15 99 20).2 ex100Stats (by decide) (by decide)⟩

/-! ### Projection lemmas for the direction steps -/

theorem outgoingStep_text_words (ts : Nat) (e : ConvEntry) :
    (outgoingStep ts e).text_words = e.text_words := by
  cases h : e.last_received_time with
  | none => simp [outgoingStep, h]
  | some t =>
    by_cases h48 : respHours ts t ≤ 48 <;> simp [outgoingStep, h, h48]

theorem incomingStep_text_words (ts : Nat) (e : ConvEntry) :
    (incomingStep ts e).text_words = e.text_words := by
  cases h : e.last_sent_time with
  | none => simp [incomingStep, h]
  | some t =>
    by_cases h48 : respHours ts t ≤ 48 <;> simp [incomingStep, h, h48]

theorem outgoingStep_counts (ts : Nat) (e : ConvEntry) :
    (outgoingStep ts e).sent = e.sent + 1 ∧
    (outgoingStep ts e).received = e.received ∧
    (outgoingStep ts e).total = e.total ∧
    (outgoingStep ts e).days_active = e.days_active := by
  cases h : e.last_received_time with
  | none => simp [outgoingStep, h]
  | some t =>
    by_cases h48 : respHours ts t ≤ 48 <;> simp [outgoingStep, h, h48]

theorem incomingStep_counts (ts : Nat) (e : ConvEntry) :
    (incomingStep ts e).sent = e.sent ∧
    (incomingStep ts e).received = e.received + 1 ∧
    (incomingStep ts e).total = e.total ∧
    (incomingStep ts e).days_active = e.days_active := by
  cases h : e.last_sent_time with
  | none => simp [incomingStep, h]
  | some t =>
    by_cases h48 : respHours ts t ≤ 48 <;> simp [incomingStep, h, h48]

/-! ### C6: the word admission filter -/

/-- A message whose text is "hi there". -/
def exWordMsg : MessageRecord :=
  { is_from_me := true, timestamp := 1000, conv_key := "a",
    conv_name := "Alice", text := "hi there" }

/-- C6: a token of the emoji-stripped text, after lower-casing and
punctuation trimming, is admitted to the word table exactly when its
length is strictly between 2 and 20, it is not a stop word, it has no
double underscore, it does not start with "ns", and it is all alphabetic;
every token of a non-empty text still counts towards `text_words`.  On the
concrete text "hi there", the token "hi" (length 2) is rejected from the
word table but both tokens count, giving `text_words = 2` and
`top_words = [("there", 1)]`. -/
theorem c6_word_admission :
    (∀ c : List Char,
       wordAllowed c = true ↔
         (2 < c.length ∧ c.length < 20 ∧
          ¬ String.mk c ∈ common_words ∧
          containsSeg ['_', '_'] c = false ∧
          leadSeg ['n', 's'] c = false ∧
          c.all Char.isAlpha = true)) ∧
    (∀ (wc : List (String × Nat)) (w : List Char),
       addWords wc [w] =
         if wordAllowed (cleanWord w) then
           bumpCount wc (String.mk (cleanWord w))
         else wc) ∧
    (∀ (st : FoldState) (m : MessageRecord),
       (stripEnds Char.isWhitespace m.text.data).isEmpty = false →
       (processMsg st m).word_counter =
         addWords st.word_counter
           (splitWs (stripEmoji (stripEnds Char.isWhitespace m.text.data))) ∧
       ∃ e3 : ConvEntry,
         lookupKey (processMsg st m).per_conv m.conv_key = some e3 ∧
         e3.text_words =
           ((lookupKey st.per_conv m.conv_key).getD
               (initEntry m.conv_name)).text_words +
             (splitWs (stripEmoji
               (stripEnds Char.isWhitespace m.text.data))).length) ∧
    wordAllowed (cleanWord ['h', 'i']) = false ∧
    (convStatsOf [exWordMsg]).map (fun e => e.text_words) = [2] ∧
    (compute_stats [exWordMsg] 15 20).top_words = some [("there", 1)] := by
  refine ⟨?_, ?_, ?_, by decide, by decide, by decide⟩
  · intro c
    simp [wordAllowed, and_assoc]
  · intro wc w
    rfl
  · intro st m htc
    constructor
    · simp [processMsg, htc]
    · refine ⟨_, lookup_store_same .., ?_⟩
      cases hd : m.is_from_me <;>
        simp [processMsg, htc, hd, incomingStep_text_words,
          outgoingStep_text_words]

/-- Witness for C6 at the concrete message "hi there" from the initial
state. -/
theorem c6_word_admission_witness :
    (stripEnds Char.isWhitespace exWordMsg.text.data).isEmpty = false ∧
    ((processMsg initState exWordMsg).word_counter =
       addWords initState.word_counter
         (splitWs (stripEmoji
           (stripEnds Char.isWhitespace exWordMsg.text.data))) ∧
     ∃ e3 : ConvEntry,
       lookupKey (processMsg initState exWordMsg).per_conv
           exWordMsg.conv_key = some e3 ∧
       e3.text_words =
         ((lookupKey initState.per_conv exWordMsg.conv_key).getD
             (initEntry exWordMsg.conv_name)).text_words +
           (splitWs (stripEmoji
             (stripEnds Char.isWhitespace exWordMsg.text.data))).length) :=
  ⟨by decide, c6_word_admission.2.2.1 initState exWordMsg (by decide)⟩

/-! ### C5: count consistency -/

theorem lookup_mem {α : Type} (l : List (String × α)) (k : String) (v : α)
    (h : lookupKey l k = some v) : (k, v) ∈ l := by
  induction l with
  | nil => simp [lookupKey] at h
  | cons hd tl ih =>
    by_cases hk : hd.1 = k
    · simp [lookupKey, hk] at h
      have he : (k, v) = hd := by rw [← hk, ← h]
      rw [he]
      exact List.mem_cons_self _ _
    · simp [lookupKey, hk] at h
      exact List.mem_cons_of_mem _ (ih h)

/-- The per-conversation effect of one message on the stored entry. -/
theorem processMsg_stored_entry (st : FoldState) (m : MessageRecord) :
    ∃ e3 : ConvEntry,
      (processMsg st m).per_conv = storeEntry st.per_conv m.conv_key e3 ∧
      e3.total =
        ((lookupKey st.per_conv m.conv_key).getD (initEntry m.conv_name)).total
          + 1 ∧
      e3.sent + e3.received =
        ((lookupKey st.per_conv m.conv_key).getD (initEntry m.conv_name)).sent
          + ((lookupKey st.per_conv m.conv_key).getD
              (initEntry m.conv_name)).received + 1 ∧
      e3.days_active =
        addDay ((lookupKey st.per_conv m.conv_key).getD
            (initEntry m.conv_name)).days_active (dayOf m.timestamp) := by
  refine ⟨_, rfl, ?_, ?_, ?_⟩ <;>
    cases hd : m.is_from_me <;>
      by_cases htc : (stripEnds Char.isWhitespace m.text.data).isEmpty <;>
        simp [processMsg, hd, htc, outgoingStep_counts, incomingStep_counts] <;>
          omega

/-- One message adds exactly one to the sent/received sum. -/
theorem processMsg_sent_received (st : FoldState) (m : MessageRecord) :
    (processMsg st m).sent_count + (processMsg st m).received_count =
      st.sent_count + st.received_count + 1 := by
  cases hd : m.is_from_me <;> simp [processMsg, hd] <;> omega

theorem fold_sent_received (l : List MessageRecord) :
    ∀ st : FoldState,
      (l.foldl processMsg st).sent_count +
          (l.foldl processMsg st).received_count =
        st.sent_count + st.received_count + l.length := by
  induction l with
  | nil => intro st; simp
  | cons m rest ih =>
    intro st
    rw [List.foldl_cons, ih (processMsg st m), processMsg_sent_received]
    simp
    omega

/-- The number of records of a batch carrying a given conversation key. -/
def countKey (l : List MessageRecord) (k : String) : Nat :=
  (l.filter (fun m => m.conv_key = k)).length

/-- The total of an optional conversation entry. -/
def entryTotal (o : Option ConvEntry) : Nat := (o.map (fun e => e.total)).getD 0

theorem processMsg_entryTotal (st : FoldState) (m : MessageRecord)
    (k : String) :
    entryTotal (lookupKey (processMsg st m).per_conv k) =
      entryTotal (lookupKey st.per_conv k) +
        (if m.conv_key = k then 1 else 0) := by
  obtain ⟨e3, hpc, htot, _, _⟩ := processMsg_stored_entry st m
  rw [hpc]
  by_cases hk : m.conv_key = k
  · subst hk
    rw [lookup_store_same, if_pos rfl]
    cases hl : lookupKey st.per_conv m.conv_key <;>
      simp [hl, entryTotal, initEntry] at htot ⊢ <;> omega
  · rw [lookup_store_other _ _ _ _ (fun h => hk h.symm), if_neg hk]
    simp

theorem fold_entryTotal (l : List MessageRecord) :
    ∀ (st : FoldState) (k : String),
      entryTotal (lookupKey (l.foldl processMsg st).per_conv k) =
        entryTotal (lookupKey st.per_conv k) + countKey l k := by
  induction l with
  | nil => intro st k; simp [countKey]
  | cons m rest ih =>
    intro st k
    rw [List.foldl_cons, ih (processMsg st m) k, processMsg_entryTotal]
    have : countKey (m :: rest) k =
        (if m.conv_key = k then 1 else 0) + countKey rest k := by
      by_cases hk : m.conv_key = k <;> simp [countKey, hk] <;> omega
    omega

/-- The running structural invariant of every stored conversation entry. -/
def EntryInv (e : ConvEntry) : Prop :=
  e.sent + e.received = e.total ∧ e.days_active.Nodup

theorem addDay_nodup (l : List Nat) (d : Nat) (h : l.Nodup) :
    (addDay l d).Nodup := by
  by_cases hd : d ∈ l
  · simpa [addDay, hd] using h
  · rw [addDay, if_neg hd, List.nodup_append]
    refine ⟨h, List.nodup_singleton d, fun a ha => ?_⟩
    simp only [List.mem_singleton]
    exact fun he => hd (he ▸ ha)

theorem processMsg_entryInv (st : FoldState) (m : MessageRecord)
    (hinv : ∀ kv ∈ st.per_conv, EntryInv kv.2) :
    ∀ kv ∈ (processMsg st m).per_conv, EntryInv kv.2 := by
  obtain ⟨e3, hpc, htot, hsr, hdays⟩ := processMsg_stored_entry st m
  rw [hpc]
  have hmem : ∀ kv ∈ storeEntry st.per_conv m.conv_key e3,
      kv ∈ st.per_conv ∨ kv = (m.conv_key, e3) := by
    clear hinv htot hsr hdays hpc
    induction st.per_conv with
    | nil => simp [storeEntry]
    | cons hd tl ih =>
      intro kv hkv
      by_cases hk : hd.1 = m.conv_key
      · simp [storeEntry, hk] at hkv
        rcases hkv with h | h
        · right; simp [h]
        · left; exact List.mem_cons_of_mem _ h
      · simp [storeEntry, hk] at hkv
        rcases hkv with h | h
        · left; simp [h]
        · rcases ih kv h with h2 | h2
          · left; exact List.mem_cons_of_mem _ h2
          · right; exact h2
  intro kv hkv
  rcases hmem kv hkv with h | h
  · exact hinv kv h
  · rw [h]
    show EntryInv e3
    have he0 : EntryInv ((lookupKey st.per_conv m.conv_key).getD
        (initEntry m.conv_name)) := by
      cases hl : lookupKey st.per_conv m.conv_key with
      | none => simp [initEntry, EntryInv]
      | some e => simpa using hinv (m.conv_key, e) (lookup_mem _ _ _ hl)
    obtain ⟨h1, h2⟩ := he0
    constructor
    · omega
    · rw [hdays]
      exact addDay_nodup _ _ h2

theorem fold_entryInv (l : List MessageRecord) :
    ∀ st : FoldState, (∀ kv ∈ st.per_conv, EntryInv kv.2) →
      ∀ kv ∈ (l.foldl processMsg st).per_conv, EntryInv kv.2 := by
  induction l with
  | nil => intro st h; simpa using h
  | cons m rest ih =>
    intro st h
    rw [List.foldl_cons]
    exact ih (processMsg st m) (processMsg_entryInv st m h)

/-- C5: period-level and conversation-level count consistency: the sent and
received counts sum to the total message count; each conversation has
`sent + received = total` with `total` the number of records carrying its
key; and the finalized active-day count is the cardinality of the
(duplicate-free) active-day set. -/
theorem c5_count_consistency :
    ∀ (msgs : List MessageRecord) (tn ten : Nat),
      ((compute_stats msgs tn ten).sent_count +
          (compute_stats msgs tn ten).received_count =
        (compute_stats msgs tn ten).total_messages) ∧
      (∀ (k : String) (e : ConvEntry),
         lookupKey (perConvOf msgs) k = some e →
         e.sent + e.received = e.total ∧
         e.total = countKey msgs k ∧
         e.days_active.Nodup) ∧
      (∀ c ∈ convStatsOf msgs,
         c.days_active_count = c.days_active.length ∧ c.days_active.Nodup) := by
  intro msgs tn ten
  have hinv : ∀ kv ∈ (foldAll msgs).per_conv, EntryInv kv.2 :=
    fold_entryInv (sortedMessages msgs) initState (by simp [initState])
  refine ⟨?_, ?_, ?_⟩
  · by_cases h : msgs.isEmpty
    · simp [compute_stats, h, emptyStats]
    · simp only [compute_stats, h, Bool.false_eq_true, if_false]
      show (foldAll msgs).sent_count + (foldAll msgs).received_count =
        msgs.length
      rw [foldAll, fold_sent_received]
      simp [initState, sortedMessages]
  · intro k e hlook
    have h1 := hinv (k, e) (lookup_mem _ _ _ hlook)
    have h2 := fold_entryTotal (sortedMessages msgs) initState k
    rw [show (sortedMessages msgs).foldl processMsg initState = foldAll msgs
          from rfl] at h2
    rw [show (foldAll msgs).per_conv = perConvOf msgs from rfl, hlook] at h2
    have h3 : countKey (sortedMessages msgs) k = countKey msgs k :=
      ((List.perm_insertionSort msgLe msgs).filter _).length_eq
    refine ⟨h1.1, ?_, h1.2⟩
    simpa [entryTotal, initState, lookupKey, h3] using h2
  · intro c hc
    obtain ⟨kv, hkv, hfc⟩ := List.mem_map.mp hc
    have h1 := hinv kv hkv
    rw [← hfc]
    exact ⟨rfl, h1.2⟩

/-- The conversation entry produced by the single message `exRespIn0`. -/
def exC5Entry : ConvEntry :=
  { name := "Alice", sent := 0, received := 1, total := 1, messages := 1,
    days_active := [0], text_words := 0, text_messages := 0,
    last_received_time := some 1000, last_sent_time := none,
    your_response_times := [], their_response_times := [] }

/-- Witness for C5 at the one-message batch `[exRespIn0]`. -/
theorem c5_count_consistency_witness :
    lookupKey (perConvOf [exRespIn0]) "a" = some exC5Entry ∧
    (exC5Entry.sent + exC5Entry.received = exC5Entry.total ∧
     exC5Entry.total = countKey [exRespIn0] "a" ∧
     exC5Entry.days_active.Nodup) :=
  ⟨by decide,
   (c5_count_consistency [exRespIn0] 15 20).2.1 "a" exC5Entry (by decide)⟩

/-! ### C7: the busiest day -/

/-- The first-maximum property of a Python-max-style fold, generically over
a measure. -/
theorem foldl_firstMax {α : Type} (f : α → Nat) :
    ∀ (xs : List α) (x : α),
      (xs.foldl (fun b y => if f b < f y then y else b) x) ∈ x :: xs ∧
      (∀ z ∈ x :: xs,
        f z ≤ f (xs.foldl (fun b y => if f b < f y then y else b) x)) ∧
      ∃ pre post,
        x :: xs =
          pre ++ (xs.foldl (fun b y => if f b < f y then y else b) x) :: post ∧
        ∀ z ∈ pre, f z < f (xs.foldl (fun b y => if f b < f y then y else b) x) := by
  intro xs
  induction xs with
  | nil =>
    intro x
    exact ⟨by simp, by simp, [], [], by simp, by simp⟩
  | cons y ys ih =>
    intro x
    rw [List.foldl_cons]
    by_cases hxy : f x < f y
    · rw [if_pos hxy]
      obtain ⟨hmem, hmax, pre, post, hdec, hpre⟩ := ih y
      refine ⟨List.mem_cons_of_mem _ hmem, ?_, x :: pre, post, ?_, ?_⟩
      · intro z hz
        rcases List.mem_cons.mp hz with h | h
        · exact h ▸ le_of_lt (lt_of_lt_of_le hxy (hmax y (by simp)))
        · exact hmax z h
      · rw [List.cons_append, ← hdec]
      · intro z hz
        rcases List.mem_cons.mp hz with h | h
        · exact h ▸ lt_of_lt_of_le hxy (hmax y (by simp))
        · exact hpre z h
    · rw [if_neg hxy]
      obtain ⟨hmem, hmax, pre, post, hdec, hpre⟩ := ih x
      have hyx : f y ≤ f x := Nat.le_of_not_lt hxy
      refine ⟨?_, ?_, ?_⟩
      · rcases List.mem_cons.mp hmem with h | h
        · rw [h]
          exact List.mem_cons_self _ _
        · exact List.mem_cons_of_mem _ (List.mem_cons_of_mem _ h)
      · intro z hz
        rcases List.mem_cons.mp hz with h | h
        · rw [h]
          exact hmax x (by simp)
        · rcases List.mem_cons.mp h with h2 | h2
          · rw [h2]
            exact le_trans hyx (hmax x (by simp))
          · exact hmax z (List.mem_cons_of_mem _ h2)
      · cases pre with
        | nil =>
          simp only [List.nil_append] at hdec
          injection hdec with h1 h2
          refine ⟨[], y :: ys, ?_, by simp⟩
          rw [List.nil_append, ← h1]
        | cons a pre2 =>
          rw [List.cons_append] at hdec
          injection hdec with h1 h2
          refine ⟨x :: y :: pre2, post, ?_, ?_⟩
          · rw [List.cons_append, List.cons_append, ← h2]
          · have hxlt :
                f x < f (ys.foldl (fun b y => if f b < f y then y else b) x) := by
              nth_rewrite 1 [h1]
              exact hpre a (by simp)
            intro z hz
            rcases List.mem_cons.mp hz with h | h
            · rw [h]
              exact hxlt
            · rcases List.mem_cons.mp h with h2m | h2m
              · rw [h2m]
                exact lt_of_le_of_lt hyx hxlt
              · exact hpre z (List.mem_cons_of_mem _ h2m)

/-- The first-encountered-maximum characterization of `firstMaxPair`. -/
theorem firstMaxPair_spec (l : List (Nat × Nat)) (hne : l ≠ []) :
    ∃ d c, firstMaxPair l = some (d, c) ∧ (d, c) ∈ l ∧
      (∀ z ∈ l, z.2 ≤ c) ∧
      ∃ pre post, l = pre ++ (d, c) :: post ∧ ∀ z ∈ pre, z.2 < c := by
  cases l with
  | nil => exact absurd rfl hne
  | cons x xs =>
    obtain ⟨hmem, hmax, pre, post, hdec, hpre⟩ :=
      foldl_firstMax (fun p : Nat × Nat => p.2) xs x
    refine ⟨_, _, rfl, hmem, hmax, pre, post, hdec, hpre⟩

/-- The day-count table only depends on the message days, via the bump
fold. -/
theorem fold_day_counts (l : List MessageRecord) :
    ∀ st : FoldState,
      (l.foldl processMsg st).day_counts =
        l.foldl (fun dc m => bumpCount dc (dayOf m.timestamp)) st.day_counts := by
  induction l with
  | nil => intro st; rfl
  | cons m rest ih =>
    intro st
    rw [List.foldl_cons, List.foldl_cons, ih]
    rfl

/-- First-occurrence deduplication, the key order of an insertion-ordered
counter. -/
def dedupFirst (l : List Nat) : List Nat :=
  l.foldl (fun acc d => if d ∈ acc then acc else acc ++ [d]) []

theorem bumpCount_keys {α : Type} [DecidableEq α] (l : List (α × Nat))
    (k : α) :
    (bumpCount l k).map Prod.fst =
      if k ∈ l.map Prod.fst then l.map Prod.fst
      else l.map Prod.fst ++ [k] := by
  induction l with
  | nil => simp [bumpCount]
  | cons hd tl ih =>
    by_cases h : hd.1 = k
    · simp [bumpCount, h]
    · simp only [bumpCount]
      rw [if_neg h]
      by_cases h2 : k ∈ tl.map Prod.fst <;>
        simp [h, Ne.symm h, h2, ih]

theorem fold_keys_msgs (l : List MessageRecord) :
    ∀ dc : List (Nat × Nat),
      (l.foldl (fun dc m => bumpCount dc (dayOf m.timestamp)) dc).map Prod.fst =
        (l.map (fun m => dayOf m.timestamp)).foldl
          (fun acc d => if d ∈ acc then acc else acc ++ [d])
          (dc.map Prod.fst) := by
  induction l with
  | nil => intro dc; rfl
  | cons m rest ih =>
    intro dc
    rw [List.foldl_cons, List.map_cons, List.foldl_cons, ih, bumpCount_keys]

theorem dedup_step_ne_nil (l : List Nat) :
    ∀ acc : List Nat, acc ≠ [] →
      l.foldl (fun acc d => if d ∈ acc then acc else acc ++ [d]) acc ≠ [] := by
  induction l with
  | nil => intro acc h; simpa using h
  | cons d rest ih =>
    intro acc h
    rw [List.foldl_cons]
    by_cases hd : d ∈ acc
    · rw [if_pos hd]; exact ih acc h
    · rw [if_neg hd]
      exact ih _ (by simp)

/-- C7: for a non-empty batch, `busiest_day` is the first pair attaining
the maximal count in the period-wide day table, whose iteration order is
the order in which days first appear in the timestamp-sorted stream; for
the empty batch it is null. -/
theorem c7_busiest_day :
    ∀ (msgs : List MessageRecord) (tn ten : Nat),
      (msgs ≠ [] →
        ∃ d c, (compute_stats msgs tn ten).busiest_day = some (d, c) ∧
          (d, c) ∈ (foldAll msgs).day_counts ∧
          (∀ z ∈ (foldAll msgs).day_counts, z.2 ≤ c) ∧
          ∃ pre post, (foldAll msgs).day_counts = pre ++ (d, c) :: post ∧
            ∀ z ∈ pre, z.2 < c) ∧
      ((foldAll msgs).day_counts.map Prod.fst =
        dedupFirst ((sortedMessages msgs).map (fun m => dayOf m.timestamp))) ∧
      (msgs = [] → (compute_stats msgs tn ten).busiest_day = none) := by
  intro msgs tn ten
  have hkeys : (foldAll msgs).day_counts.map Prod.fst =
      dedupFirst ((sortedMessages msgs).map (fun m => dayOf m.timestamp)) := by
    rw [foldAll, fold_day_counts, fold_keys_msgs, dedupFirst]
    rfl
  refine ⟨?_, hkeys, ?_⟩
  · intro hne
    have hsne : sortedMessages msgs ≠ [] := by
      intro h
      apply hne
      have hlen := (List.perm_insertionSort msgLe msgs).length_eq
      rw [show List.insertionSort msgLe msgs = sortedMessages msgs from rfl,
        h] at hlen
      exact List.eq_nil_of_length_eq_zero hlen.symm
    have hdne : (foldAll msgs).day_counts ≠ [] := by
      intro h
      have := hkeys
      rw [h] at this
      cases hs : sortedMessages msgs with
      | nil => exact hsne hs
      | cons a rest =>
        rw [hs] at this
        simp only [List.map_cons, List.map_nil, dedupFirst, List.foldl_cons] at this
        exact dedup_step_ne_nil _ [dayOf a.timestamp] (by simp)
          (by simpa using this.symm)
    obtain ⟨d, c, hfm, hmem, hmax, pre, post, hdec, hpre⟩ :=
      firstMaxPair_spec _ hdne
    have hbd : (compute_stats msgs tn ten).busiest_day =
        firstMaxPair (foldAll msgs).day_counts := by
      simp [compute_stats, List.isEmpty_iff, hne]
    exact ⟨d, c, hbd ▸ hfm, hmem, hmax, pre, post, hdec, hpre⟩
  · intro h
    rw [h]
    rfl

/-- Witness for C7 at a two-message batch on one day. -/
theorem c7_busiest_day_witness :
    [exRespIn0, exRespOut1] ≠ [] ∧
    (∃ d c,
      (compute_stats [exRespIn0, exRespOut1] 15 20).busiest_day = some (d, c) ∧
      (d, c) ∈ (foldAll [exRespIn0, exRespOut1]).day_counts ∧
      (∀ z ∈ (foldAll [exRespIn0, exRespOut1]).day_counts, z.2 ≤ c) ∧
      ∃ pre post,
        (foldAll [exRespIn0, exRespOut1]).day_counts = pre ++ (d, c) :: post ∧
        ∀ z ∈ pre, z.2 < c) :=
  ⟨by decide, (c7_busiest_day [exRespIn0, exRespOut1] 15 20).1 (by decide)⟩

/-! ### C9: response times lie in [0, 48] -/

/-- Both response-time lists of an entry contain only hours in [0, 48]. -/
def RespOk (e : ConvEntry) : Prop :=
  (∀ x ∈ e.your_response_times, 0 ≤ x ∧ x ≤ 48) ∧
  (∀ x ∈ e.their_response_times, 0 ≤ x ∧ x ≤ 48)

/-- The pending registers hold timestamps no later than every remaining
message. -/
def RegBound (e : ConvEntry) (rest : List MessageRecord) : Prop :=
  (∀ t, e.last_received_time = some t → ∀ m ∈ rest, t ≤ m.timestamp) ∧
  (∀ t, e.last_sent_time = some t → ∀ m ∈ rest, t ≤ m.timestamp)

theorem respHours_nonneg (ts t : Nat) (h : t ≤ ts) : 0 ≤ respHours ts t :=
  Rat.mkRat_nonneg (by omega) 3600

theorem outgoingStep_c9 (ts : Nat) (e : ConvEntry) (hok : RespOk e)
    (hrecv : ∀ t, e.last_received_time = some t → t ≤ ts) :
    RespOk (outgoingStep ts e) ∧
    (outgoingStep ts e).last_received_time = none ∧
    (outgoingStep ts e).last_sent_time = some ts := by
  cases h : e.last_received_time with
  | none =>
    refine ⟨⟨?_, ?_⟩, by simp [outgoingStep, h], by simp [outgoingStep, h]⟩ <;>
      simp [outgoingStep, h] <;> [exact hok.1; exact hok.2]
  | some t =>
    by_cases h48 : respHours ts t ≤ 48
    · refine ⟨⟨?_, ?_⟩, by simp [outgoingStep, h, h48],
        by simp [outgoingStep, h, h48]⟩
      · intro x hx
        simp [outgoingStep, h, h48] at hx
        rcases hx with hx | hx
        · exact hok.1 x hx
        · exact hx ▸ ⟨respHours_nonneg ts t (hrecv t h), h48⟩
      · intro x hx
        simp [outgoingStep, h, h48] at hx
        exact hok.2 x hx
    · refine ⟨⟨?_, ?_⟩, by simp [outgoingStep, h, h48],
        by simp [outgoingStep, h, h48]⟩ <;>
        simp [outgoingStep, h, h48] <;> [exact hok.1; exact hok.2]

theorem incomingStep_c9 (ts : Nat) (e : ConvEntry) (hok : RespOk e)
    (hsentr : ∀ t, e.last_sent_time = some t → t ≤ ts) :
    RespOk (incomingStep ts e) ∧
    (incomingStep ts e).last_sent_time = none ∧
    (incomingStep ts e).last_received_time = some ts := by
  cases h : e.last_sent_time with
  | none =>
    refine ⟨⟨?_, ?_⟩, by simp [incomingStep, h], by simp [incomingStep, h]⟩ <;>
      simp [incomingStep, h] <;> [exact hok.1; exact hok.2]
  | some t =>
    by_cases h48 : respHours ts t ≤ 48
    · refine ⟨⟨?_, ?_⟩, by simp [incomingStep, h, h48],
        by simp [incomingStep, h, h48]⟩
      · intro x hx
        simp [incomingStep, h, h48] at hx
        exact hok.1 x hx
      · intro x hx
        simp [incomingStep, h, h48] at hx
        rcases hx with hx | hx
        · exact hok.2 x hx
        · exact hx ▸ ⟨respHours_nonneg ts t (hsentr t h), h48⟩
    · refine ⟨⟨?_, ?_⟩, by simp [incomingStep, h, h48],
        by simp [incomingStep, h, h48]⟩ <;>
        simp [incomingStep, h, h48] <;> [exact hok.1; exact hok.2]

theorem initEntry_respOk (name : String) : RespOk (initEntry name) := by
  constructor <;> simp [initEntry]

theorem processMsg_c9 (st : FoldState) (m : MessageRecord)
    (rest : List MessageRecord)
    (hsorted : ∀ m2 ∈ rest, m.timestamp ≤ m2.timestamp)
    (hinv : ∀ k e, lookupKey st.per_conv k = some e →
      RespOk e ∧ RegBound e (m :: rest)) :
    ∀ k e, lookupKey (processMsg st m).per_conv k = some e →
      RespOk e ∧ RegBound e rest := by
  obtain ⟨e3, hpc, hyour, htheir, hrecv3, hsent3⟩ := processMsg_per_conv st m
  intro k e hl
  rw [hpc] at hl
  by_cases hk : m.conv_key = k
  · subst hk
    rw [lookup_store_same] at hl
    have he3 : e3 = e := by injection hl
    subst he3
    set e0 := (lookupKey st.per_conv m.conv_key).getD (initEntry m.conv_name)
      with he0
    have h0 : RespOk e0 ∧
        (∀ t, e0.last_received_time = some t → t ≤ m.timestamp) ∧
        (∀ t, e0.last_sent_time = some t → t ≤ m.timestamp) := by
      cases hlk : lookupKey st.per_conv m.conv_key with
      | none =>
        rw [he0, hlk]
        simp only [Option.getD_none]
        exact ⟨initEntry_respOk _, by simp [initEntry], by simp [initEntry]⟩
      | some e2 =>
        obtain ⟨hok, hrb⟩ := hinv _ e2 hlk
        refine ⟨by simpa [he0, hlk] using hok, ?_, ?_⟩
        · intro t ht
          exact hrb.1 t (by simpa [he0, hlk] using ht) m (by simp)
        · intro t ht
          exact hrb.2 t (by simpa [he0, hlk] using ht) m (by simp)
    cases hd : m.is_from_me
    · obtain ⟨hok, hsl, hrl⟩ := incomingStep_c9 m.timestamp e0 h0.1 h0.2.2
      rw [hd] at hyour htheir hrecv3 hsent3
      simp only [if_neg Bool.false_ne_true] at hyour htheir hrecv3 hsent3
      refine ⟨⟨?_, ?_⟩, ?_, ?_⟩
      · rw [hyour]; exact hok.1
      · rw [htheir]; exact hok.2
      · intro t ht m2 hm2
        rw [hrecv3, hrl] at ht
        injection ht with ht
        exact ht ▸ hsorted m2 hm2
      · intro t ht
        rw [hsent3, hsl] at ht
        exact absurd ht (by simp)
    · obtain ⟨hok, hrl, hsl⟩ := outgoingStep_c9 m.timestamp e0 h0.1 h0.2.1
      rw [hd] at hyour htheir hrecv3 hsent3
      simp only [if_pos rfl, if_true] at hyour htheir hrecv3 hsent3
      refine ⟨⟨?_, ?_⟩, ?_, ?_⟩
      · rw [hyour]; exact hok.1
      · rw [htheir]; exact hok.2
      · intro t ht
        rw [hrecv3, hrl] at ht
        exact absurd ht (by simp)
      · intro t ht m2 hm2
        rw [hsent3, hsl] at ht
        injection ht with ht
        exact ht ▸ hsorted m2 hm2
  · rw [lookup_store_other _ _ _ _ (fun h => hk h.symm)] at hl
    obtain ⟨hok, hrb⟩ := hinv k e hl
    exact ⟨hok, fun t ht m2 hm2 => hrb.1 t ht m2 (List.mem_cons_of_mem _ hm2),
      fun t ht m2 hm2 => hrb.2 t ht m2 (List.mem_cons_of_mem _ hm2)⟩

theorem fold_c9 (l : List MessageRecord) :
    ∀ st : FoldState, List.Pairwise msgLe l →
      (∀ k e, lookupKey st.per_conv k = some e → RespOk e ∧ RegBound e l) →
      ∀ k e, lookupKey ((l.foldl processMsg st)).per_conv k = some e →
        RespOk e := by
  induction l with
  | nil =>
    intro st _ hinv k e hl
    exact (hinv k e (by simpa using hl)).1
  | cons m rest ih =>
    intro st hp hinv
    rw [List.foldl_cons]
    exact ih (processMsg st m) (List.pairwise_cons.mp hp).2
      (processMsg_c9 st m rest (List.pairwise_cons.mp hp).1 hinv)

/-- C9: every recorded response time, in both directions and every
conversation, lies in the closed interval [0, 48] hours: nonnegative
because the pairing runs over the timestamp-ascending sequence, and at
most 48 by the admission threshold. -/
theorem c9_response_time_bounds :
    ∀ (msgs : List MessageRecord) (k : String) (e : ConvEntry),
      lookupKey (perConvOf msgs) k = some e →
      (∀ x ∈ e.your_response_times ++ e.their_response_times,
        0 ≤ x ∧ x ≤ 48) := by
  intro msgs k e hl
  have hok : RespOk e := by
    refine fold_c9 (sortedMessages msgs) initState ?_ ?_ k e hl
    · exact List.sorted_insertionSort msgLe msgs
    · intro k2 e2 hl2
      simp [initState, lookupKey] at hl2
  intro x hx
  rcases List.mem_append.mp hx with h | h
  · exact hok.1 x h
  · exact hok.2 x h

/-- The conversation entry after the batch `[exRespIn0, exRespOut1]`. -/
def exC9Entry : ConvEntry :=
  { name := "Alice", sent := 1, received := 1, total := 2, messages := 2,
    days_active := [0], text_words := 0, text_messages := 0,
    last_received_time := none, last_sent_time := some 4600,
    your_response_times := [1], their_response_times := [] }

/-- Witness for C9 at a batch that records a one-hour response. -/
theorem c9_response_time_bounds_witness :
    lookupKey (perConvOf [exRespIn0, exRespOut1]) "a" = some exC9Entry ∧
    (∀ x ∈ exC9Entry.your_response_times ++ exC9Entry.their_response_times,
      0 ≤ x ∧ x ≤ 48) :=
  ⟨by decide,
   c9_response_time_bounds [exRespIn0, exRespOut1] "a" exC9Entry (by decide)⟩

/-! ### C4: the top-conversations list -/

/-- A 400-message batch over three conversations with totals 200 ("c"),
120 ("a") and 80 ("b"). -/
def ex400 : List MessageRecord :=
  (List.range 400).map
    (fun i =>
      { is_from_me := true, timestamp := i,
        conv_key := if i < 200 then "c" else if i < 320 then "a" else "b",
        conv_name := "N", text := "" })

set_option maxRecDepth 200000 in
/-- C4: `top_contacts` consists of exactly the conversations with total at
least 100, is sorted by total descending, and ties keep the insertion
(first-seen) order: for each total value, the entries carrying it appear in
the same order as in the finalized conversation list.  On conversations
with totals [200, 120, 80] and threshold 100 the result is [200, 120]. -/
theorem c4_top_conversations :
    ∀ (msgs : List MessageRecord) (tn ten : Nat),
      (∀ e : ConversationStats,
        e ∈ (compute_stats msgs tn ten).top_contacts ↔
          e ∈ convStatsOf msgs ∧ 100 ≤ e.total) ∧
      List.Sorted totalGe (compute_stats msgs tn ten).top_contacts ∧
      (∀ t : Nat,
        (compute_stats msgs tn ten).top_contacts.filter
            (fun e => e.total = t) =
          ((convStatsOf msgs).filter (fun e => 100 ≤ e.total)).filter
            (fun e => e.total = t)) ∧
      (compute_stats ex400 15 20).top_contacts.map (fun e => e.total) =
        [200, 120] := by
  intro msgs tn ten
  have hex : (compute_stats ex400 15 20).top_contacts.map (fun e => e.total) =
      [200, 120] := by decide
  by_cases h : msgs.isEmpty
  · have hm : msgs = [] := List.isEmpty_iff.mp h
    subst hm
    refine ⟨?_, ?_, ?_, hex⟩ <;>
      simp [compute_stats, emptyStats, convStatsOf, perConv_nil]
  · have htc : (compute_stats msgs tn ten).top_contacts =
        List.insertionSort totalGe
          ((convStatsOf msgs).filter (fun e => decide (100 ≤ e.total))) := by
      simp [compute_stats, h]
      rfl
    refine ⟨?_, ?_, ?_, hex⟩
    · intro e
      rw [htc, List.mem_insertionSort, List.mem_filter]
      simp
    · rw [htc]
      exact List.sorted_insertionSort totalGe _
    · intro t
      rw [htc]
      set eligible :=
        (convStatsOf msgs).filter (fun e => decide (100 ≤ e.total)) with helig
      set c := eligible.filter (fun e => decide (e.total = t)) with hc
      have hcall : ∀ x ∈ c, x.total = t := by
        intro x hx
        simpa using (List.mem_filter.mp hx).2
      have hpair : c.Pairwise totalGe := by
        refine List.pairwise_of_forall_mem_list ?_
        intro a ha b hb
        show b.total ≤ a.total
        rw [hcall a ha, hcall b hb]
      have hsub : List.Sublist c (List.insertionSort totalGe eligible) :=
        List.sublist_insertionSort hpair (List.filter_sublist _)
      have hsub2 : List.Sublist c ((List.insertionSort totalGe eligible).filter
          (fun e => decide (e.total = t))) := by
        have h2 := hsub.filter (fun e => decide (e.total = t))
        rwa [List.filter_eq_self.mpr
          (fun a ha => by simpa using hcall a ha)] at h2
      have hlen : ((List.insertionSort totalGe eligible).filter
          (fun e => decide (e.total = t))).length = c.length := by
        rw [hc]
        exact ((List.perm_insertionSort totalGe eligible).filter _).length_eq
      exact (hsub2.eq_of_length hlen.symm).symm

/-! ### C2: the longest streak

The streak scan is analysed through the decomposition of the sorted day
list into its maximal consecutive blocks: the scan is shown equal to a
Python-max-style fold over the block list, and the block decomposition is
characterized against membership in the day set. -/

/-- The maximal consecutive blocks of a strictly ascending day list, as
`(start, end)` pairs, given an open block `start..p`. -/
def blocksGo (s p : Nat) : List Nat → List (Nat × Nat)
  | [] => [(s, p)]
  | d :: rest =>
      if d = p + 1 then blocksGo s d rest else (s, p) :: blocksGo d d rest

/-- The maximal consecutive blocks of a strictly ascending day list. -/
def blocks : List Nat → List (Nat × Nat)
  | [] => []
  | d :: rest => blocksGo d d rest

/-- The `(length, start, end)` triple of a block. -/
def tripleOf (b : Nat × Nat) : Nat × Nat × Nat := (b.2 - b.1 + 1, b.1, b.2)

theorem blocksGo_head (l : List Nat) :
    ∀ s p : Nat, ∃ pe tl, blocksGo s p l = (s, pe) :: tl ∧ p ≤ pe := by
  induction l with
  | nil => intro s p; exact ⟨p, [], rfl, le_refl p⟩
  | cons d rest ih =>
    intro s p
    by_cases hd : d = p + 1
    · obtain ⟨pe, tl, heq, hle⟩ := ih s d
      exact ⟨pe, tl, by rw [blocksGo, if_pos hd]; exact heq, by omega⟩
    · exact ⟨p, blocksGo d d rest, by rw [blocksGo, if_neg hd], le_refl p⟩

/-- The streak scan is the first-maximum fold over the remaining block
triples. -/
theorem streakScan_eq_fold (l : List Nat) :
    ∀ prev curStart curLen maxLen bs be : Nat,
      1 ≤ curLen → prev = curStart + (curLen - 1) →
      streakScan prev curStart curLen maxLen bs be l =
        ((blocksGo curStart prev l).map tripleOf).foldl
          (fun a t => if a.1 < t.1 then t else a) (maxLen, bs, be) := by
  induction l with
  | nil =>
    intro prev curStart curLen maxLen bs be h1 h2
    have hlen : prev - curStart + 1 = curLen := by omega
    simp only [streakScan, blocksGo, List.map_cons, List.map_nil,
      List.foldl_cons, List.foldl_nil, tripleOf, hlen]
  | cons d rest ih =>
    intro prev curStart curLen maxLen bs be h1 h2
    by_cases hd : d = prev + 1
    · rw [streakScan, if_pos hd, blocksGo, if_pos hd]
      exact ih d curStart (curLen + 1) maxLen bs be (by omega) (by omega)
    · have hlen : prev - curStart + 1 = curLen := by omega
      rw [streakScan, if_neg hd, blocksGo, if_neg hd, List.map_cons,
        List.foldl_cons]
      simp only [tripleOf, hlen]
      by_cases hmax : maxLen < curLen
      · rw [if_pos hmax, if_pos hmax]
        exact ih d d 1 curLen curStart prev (le_refl 1) (by omega)
      · rw [if_neg hmax, if_neg hmax]
        exact ih d d 1 maxLen bs be (le_refl 1) (by omega)

/-- The characterization of the block scan against a day-set predicate `P`
(membership in the sorted list): every produced block is a run of `P`-days
that cannot extend right, block starts are ordered, and every `P`-day from
the current start on is covered by a block. -/
theorem blocksGo_spec (l : List Nat) :
    ∀ (s p : Nat) (P : Nat → Prop),
      s ≤ p →
      (∀ x, s ≤ x → x ≤ p → P x) →
      List.Pairwise (· < ·) (p :: l) →
      (∀ x ∈ l, P x) →
      (∀ x, P x → x ≤ p ∨ x ∈ l) →
      (∀ b ∈ blocksGo s p l,
         b.1 ≤ b.2 ∧ (∀ x, b.1 ≤ x → x ≤ b.2 → P x) ∧ ¬ P (b.2 + 1) ∧
         s ≤ b.1) ∧
      List.Pairwise (fun b1 b2 : Nat × Nat => b1.1 ≤ b2.1) (blocksGo s p l) ∧
      (∀ x, P x → s ≤ x → ∃ b ∈ blocksGo s p l, b.1 ≤ x ∧ x ≤ b.2) := by
  induction l with
  | nil =>
    intro s p P h1 h2 hpw h4 h5
    refine ⟨?_, by simp [blocksGo], ?_⟩
    · intro b hb
      simp only [blocksGo, List.mem_singleton] at hb
      subst hb
      refine ⟨h1, h2, ?_, le_refl s⟩
      intro hP
      rcases h5 _ hP with h | h
      · omega
      · simp at h
    · intro x hP hsx
      rcases h5 x hP with h | h
      · exact ⟨(s, p), by simp [blocksGo], hsx, h⟩
      · simp at h
  | cons d rest ih =>
    intro s p P h1 h2 hpw h4 h5
    have hpd : p < d := (List.pairwise_cons.mp hpw).1 d (by simp)
    have hpw2 : List.Pairwise (· < ·) (d :: rest) :=
      (List.pairwise_cons.mp hpw).2
    by_cases hd : d = p + 1
    · rw [blocksGo, if_pos hd]
      apply ih s d P (by omega)
      · intro x hx1 hx2
        by_cases hxp : x ≤ p
        · exact h2 x hx1 hxp
        · have hx : x = d := by omega
          exact hx ▸ h4 d (by simp)
      · exact hpw2
      · intro x hx
        exact h4 x (List.mem_cons_of_mem _ hx)
      · intro x hP
        rcases h5 x hP with h | h
        · left; omega
        · rcases List.mem_cons.mp h with h | h
          · left; omega
          · right; exact h
    · rw [blocksGo, if_neg hd]
      have hrest_gt : ∀ x ∈ rest, d < x :=
        fun x hx => (List.pairwise_cons.mp hpw2).1 x hx
      obtain ⟨ihC1, ihC2, ihC3⟩ :=
        ih d d P (le_refl d)
          (fun x hx1 hx2 => by
            have hx : x = d := by omega
            exact hx ▸ h4 d (by simp))
          hpw2
          (fun x hx => h4 x (List.mem_cons_of_mem _ hx))
          (fun x hP => by
            rcases h5 x hP with h | h
            · left; omega
            · rcases List.mem_cons.mp h with h | h
              · left; omega
              · right; exact h)
      refine ⟨?_, ?_, ?_⟩
      · intro b hb
        rcases List.mem_cons.mp hb with h | h
        · subst h
          refine ⟨h1, h2, ?_, le_refl s⟩
          intro hP
          rcases h5 _ hP with h | h
          · omega
          · rcases List.mem_cons.mp h with h | h
            · omega
            · have := hrest_gt _ h
              omega
        · obtain ⟨hb1, hb2, hb3, hb4⟩ := ihC1 b h
          exact ⟨hb1, hb2, hb3, le_trans (by omega) hb4⟩
      · rw [List.pairwise_cons]
        exact ⟨fun b hb => le_trans (show s ≤ d by omega) (ihC1 b hb).2.2.2,
          ihC2⟩
      · intro x hP hsx
        rcases h5 x hP with h | h
        · exact ⟨(s, p), by simp, hsx, h⟩
        · have hdx : d ≤ x := by
            rcases List.mem_cons.mp h with h | h
            · omega
            · exact le_of_lt (hrest_gt x h)
          obtain ⟨b, hb, hb1, hb2⟩ := ihC3 x hP hdx
          exact ⟨b, List.mem_cons_of_mem _ hb, hb1, hb2⟩

/-- The initial scan state `(1, d, d)` is absorbed by the first block
triple. -/
theorem fold_init_head (d pe : Nat) (hle : d ≤ pe)
    (ts : List (Nat × Nat × Nat)) :
    ((tripleOf (d, pe)) :: ts).foldl
        (fun a t => if a.1 < t.1 then t else a) (1, d, d) =
      ts.foldl (fun a t => if a.1 < t.1 then t else a) (tripleOf (d, pe)) := by
  rw [List.foldl_cons]
  congr 1
  simp only [tripleOf]
  by_cases h : 1 < pe - d + 1
  · rw [if_pos h]
  · rw [if_neg h]
    have hpd : pe = d := by omega
    subst hpd
    simp

/-- A consecutive run of `P`-days starting inside a right-maximal block
stays inside the block. -/
theorem run_in_block (P : Nat → Prop) (sb pb d0 n : Nat)
    (hend : ¬ P (pb + 1)) (hd0b : d0 ≤ pb)
    (hwin : ∀ j, j ≤ n → P (d0 + j)) :
    d0 + n ≤ pb := by
  induction n with
  | zero => omega
  | succ k ih =>
    have h1 : d0 + k ≤ pb := ih (fun j hj => hwin j (by omega))
    by_cases heq : d0 + k = pb
    · exact absurd
        (by rw [show pb + 1 = d0 + (k + 1) from by omega]
            exact hwin (k + 1) (le_refl _)) hend
    · omega

/-- C2: StreakFinder on a set of active dates: empty input gives the empty
result; otherwise the returned `(length, start, end)` is a run of
consecutive present days (`end = start + length - 1`, all days present),
no run of `length + 1` consecutive days exists, and every run of `length`
consecutive days starts no earlier than the returned one (earliest
maximal run wins ties).  Day numbers encode calendar dates; on
{2024-01-01, 01-02, 01-03, 01-10} (day numbers 19723, 19724, 19725,
19732) the result is length 3 from 19723 (01-01) to 19725 (01-03). -/
theorem c2_longest_streak :
    (∀ days : List Nat, days.Nodup →
      ((longestRun days = none ↔ days = []) ∧
       (∀ len s e : Nat, longestRun days = some (len, s, e) →
         1 ≤ len ∧ e = s + len - 1 ∧
         (∀ x, s ≤ x → x ≤ e → x ∈ days) ∧
         (∀ d0 : Nat, ¬ (∀ j, j ≤ len → (d0 + j) ∈ days)) ∧
         (∀ d0 : Nat, (∀ j, j < len → (d0 + j) ∈ days) → s ≤ d0)))) ∧
    longestRun [19723, 19724, 19725, 19732] = some (3, 19723, 19725) ∧
    longestRun [] = none := by
  refine ⟨?_, by decide, by decide⟩
  intro days hnd
  have hperm := List.perm_insertionSort natLe days
  cases hs : List.insertionSort natLe days with
  | nil =>
    have hdays : days = [] := by
      have hl := hperm.length_eq
      rw [hs] at hl
      exact List.eq_nil_of_length_eq_zero hl.symm
    subst hdays
    exact ⟨by simp [longestRun], fun len s e h => by simp [longestRun] at h⟩
  | cons d rest =>
    have hdne : days ≠ [] := by
      intro h
      rw [h] at hs
      simp [List.insertionSort] at hs
    have hsorted : List.Sorted (· ≤ ·) (List.insertionSort natLe days) :=
      List.sorted_insertionSort natLe days
    have hnd2 : (List.insertionSort natLe days).Nodup :=
      hperm.nodup_iff.mpr hnd
    have hlt0 : List.Sorted (· < ·) (List.insertionSort natLe days) :=
      List.Sorted.lt_of_le hsorted hnd2
    have hlt : List.Pairwise (· < ·) (d :: rest) := hs ▸ hlt0
    have hmem2 : ∀ x, x ∈ (d :: rest) ↔ x ∈ days := by
      intro x
      rw [← hs]
      exact List.mem_insertionSort natLe
    have hge : ∀ x ∈ days, d ≤ x := by
      intro x hx
      rcases List.mem_cons.mp ((hmem2 x).mpr hx) with h | h
      · omega
      · exact le_of_lt ((List.pairwise_cons.mp hlt).1 x h)
    obtain ⟨C1, C2, C3⟩ :=
      blocksGo_spec rest d d (fun x => x ∈ days) (le_refl d)
        (fun x hx1 hx2 => by
          have hxd : x = d := by omega
          exact hxd ▸ (hmem2 d).mp (by simp))
        hlt
        (fun x hx => (hmem2 x).mp (List.mem_cons_of_mem _ hx))
        (fun x hx => by
          rcases List.mem_cons.mp ((hmem2 x).mpr hx) with h | h
          · left; omega
          · right; exact h)
    obtain ⟨pe, tl, hbg, hdpe⟩ := blocksGo_head rest d d
    have hrun : longestRun days = some
        (((blocksGo d d rest).map tripleOf).foldl
          (fun a t => if a.1 < t.1 then t else a) (1, d, d)) := by
      simp only [longestRun, hs]
      rw [streakScan_eq_fold rest d d 1 1 d d (le_refl 1) (by omega)]
    have hrun2 : longestRun days = some
        ((tl.map tripleOf).foldl
          (fun a t => if a.1 < t.1 then t else a) (tripleOf (d, pe))) := by
      rw [hrun, hbg, List.map_cons, fold_init_head d pe hdpe]
    obtain ⟨hmemr, hmaxr, pre, post, hdec, hpre⟩ :=
      foldl_firstMax (fun t : Nat × Nat × Nat => t.1) (tl.map tripleOf)
        (tripleOf (d, pe))
    have htriples : tripleOf (d, pe) :: tl.map tripleOf =
        (blocksGo d d rest).map tripleOf := by
      rw [hbg, List.map_cons]
    constructor
    · rw [hrun2]
      simp [hdne]
    · intro len s e happ
      rw [hrun2] at happ
      injection happ with happ
      rw [happ] at hmemr hmaxr hdec hpre
      rw [htriples] at hmemr hmaxr hdec
      obtain ⟨b, hbmem, htb⟩ := List.mem_map.mp hmemr
      obtain ⟨sb, pb⟩ := b
      simp only [tripleOf, Prod.mk.injEq] at htb
      obtain ⟨htb1, htb2, htb3⟩ := htb
      obtain ⟨hble, hbwin, hbend, hbge⟩ := C1 (sb, pb) hbmem
      refine ⟨by omega, by omega, ?_, ?_, ?_⟩
      · intro x hx1 hx2
        exact hbwin x (by omega) (by omega)
      · intro d0 hwin
        have hd0 : d0 ∈ days := by
          have := hwin 0 (by omega)
          simpa using this
        obtain ⟨b2, hb2mem, hb2a, hb2b⟩ := C3 d0 hd0 (hge d0 hd0)
        obtain ⟨hb2le, hb2win, hb2end, hb2ge⟩ := C1 b2 hb2mem
        have hext : d0 + len ≤ b2.2 :=
          run_in_block (fun x => x ∈ days) b2.1 b2.2 d0 len hb2end hb2b hwin
        have hmeas := hmaxr (tripleOf b2) (List.mem_map_of_mem tripleOf hb2mem)
        simp only [tripleOf] at hmeas
        omega
      · intro d0 hwin
        have hd0 : d0 ∈ days := by
          have := hwin 0 (by omega)
          simpa using this
        obtain ⟨b2, hb2mem, hb2a, hb2b⟩ := C3 d0 hd0 (hge d0 hd0)
        obtain ⟨hb2le, hb2win, hb2end, hb2ge⟩ := C1 b2 hb2mem
        have hext : d0 + (len - 1) ≤ b2.2 :=
          run_in_block (fun x => x ∈ days) b2.1 b2.2 d0 (len - 1) hb2end hb2b
            (fun j hj => hwin j (by omega))
        have hmeaslb : len ≤ b2.2 - b2.1 + 1 := by omega
        have htw : tripleOf b2 ∈ (blocksGo d d rest).map tripleOf :=
          List.mem_map_of_mem tripleOf hb2mem
        rw [hdec] at htw
        rcases List.mem_append.mp htw with h | h
        · have := hpre _ h
          simp only [tripleOf] at this
          omega
        · have hpw : List.Pairwise
              (fun t1 t2 : Nat × Nat × Nat => t1.2.1 ≤ t2.2.1)
              ((blocksGo d d rest).map tripleOf) :=
            C2.map tripleOf (fun a b hab => hab)
          rw [hdec] at hpw
          have hpw2 :=
            List.Pairwise.sublist (List.sublist_append_right pre _) hpw
          rcases List.mem_cons.mp h with h2 | h2
          · have h3 := congrArg (fun t : Nat × Nat × Nat => t.2.1) h2
            simp [tripleOf] at h3
            omega
          · have h3 := (List.pairwise_cons.mp hpw2).1 _ h2
            simp [tripleOf] at h3
            omega

/-- Witness for C2 at the concrete four-day set. -/
theorem c2_longest_streak_witness :
    ([19723, 19724, 19725, 19732] : List Nat).Nodup ∧
    longestRun [19723, 19724, 19725, 19732] = some (3, 19723, 19725) ∧
    (1 ≤ 3 ∧ 19725 = 19723 + 3 - 1 ∧
     (∀ x, 19723 ≤ x → x ≤ 19725 →
        x ∈ ([19723, 19724, 19725, 19732] : List Nat)) ∧
     (∀ d0 : Nat,
        ¬ (∀ j, j ≤ 3 → (d0 + j) ∈ ([19723, 19724, 19725, 19732] : List Nat))) ∧
     (∀ d0 : Nat,
        (∀ j, j < 3 → (d0 + j) ∈ ([19723, 19724, 19725, 19732] : List Nat)) →
        19723 ≤ d0)) :=
  ⟨by decide, by decide,
   (c2_longest_streak.1 [19723, 19724, 19725, 19732] (by decide)).2
     3 19723 19725 (by decide)⟩

end IMessageWrapped
